import Mathlib

/-
Verification development for the galactic decomposition routine
(pynbody/analysis/decomp.py).  The file shallowly embeds the decomposition
pipeline over exact rationals: the five-way classifier, the critical-ratio
clamp, the energy reference shift, the energy-to-circular-angular-momentum
interpolation with its boundary clamps, the full stateful pipeline, the
quantile-based estimator, and the spheroid mean-velocity objective.
External collaborators (alignment transformation, profile binning engine,
bisection root finder, numpy square root and logarithms) are injected as
explicit function parameters, following the collaborator contracts of the
documentation.  Machine floating point is modelled by exact rationals,
with a three-valued domain (nan, inf, finite) where the code can produce
non-finite values.
-/

namespace PynbodyDecomp

/- ===================== Classifier (decomp lines 175-217) ===================== -/

/-- Parameters of the five-way classification: the disk band, the energy
cutoff and the critical angular-momentum ratio. -/
structure ClassParams where
  j_disk_min : ℚ
  j_disk_max : ℚ
  E_cut : ℚ
  j_crit : ℚ
deriving DecidableEq

/-- Pass-1 rule, label 1: jz_by_jzcirc strictly inside the disk band. -/
def IsDisk (q : ClassParams) (r : ℚ) : Prop :=
  q.j_disk_min < r ∧ r < q.j_disk_max

/-- Pass-2 rule, label 2 (halo): te > E_cut and ratio < j_crit. -/
def IsHalo (q : ClassParams) (t r : ℚ) : Prop :=
  q.E_cut < t ∧ r < q.j_crit

/-- Pass-2 rule, label 3 (bulge): te <= E_cut and ratio < j_crit. -/
def IsBulge (q : ClassParams) (t r : ℚ) : Prop :=
  t ≤ q.E_cut ∧ r < q.j_crit

/-- Pass-2 rule, label 4 (thick disk): te > E_cut, ratio > j_crit, and the
ratio outside the disk band. -/
def IsThick (q : ClassParams) (t r : ℚ) : Prop :=
  q.E_cut < t ∧ q.j_crit < r ∧ (r < q.j_disk_min ∨ q.j_disk_max < r)

/-- Pass-2 rule, label 5 (pseudo bulge): te <= E_cut, ratio > j_crit, and the
ratio outside the disk band. -/
def IsPseudoBulge (q : ClassParams) (t r : ℚ) : Prop :=
  t ≤ q.E_cut ∧ q.j_crit < r ∧ (r < q.j_disk_min ∨ q.j_disk_max < r)

instance (q : ClassParams) (r : ℚ) : Decidable (IsDisk q r) := by
  unfold IsDisk; exact inferInstance

instance (q : ClassParams) (t r : ℚ) : Decidable (IsHalo q t r) := by
  unfold IsHalo; exact inferInstance

instance (q : ClassParams) (t r : ℚ) : Decidable (IsBulge q t r) := by
  unfold IsBulge; exact inferInstance

instance (q : ClassParams) (t r : ℚ) : Decidable (IsThick q t r) := by
  unfold IsThick; exact inferInstance

instance (q : ClassParams) (t r : ℚ) : Decidable (IsPseudoBulge q t r) := by
  unfold IsPseudoBulge; exact inferInstance

/-- The label a single star carries after the five array writes of decomp:
first the pass-1 disk write (1), then the pass-2 writes in source order
(halo 2, bulge 3, thick 4, pseudo bulge 5); a star matching no rule keeps
its previous label. -/
def decompLabel (q : ClassParams) (prev : ℤ) (t r : ℚ) : ℤ :=
  let a1 := if IsDisk q r then 1 else prev
  let a2 := if IsHalo q t r then 2 else a1
  let a3 := if IsBulge q t r then 3 else a2
  let a4 := if IsThick q t r then 4 else a3
  if IsPseudoBulge q t r then 5 else a4

/-- Number of classification rules satisfied at a given point of the
(energy, ratio) plane. -/
def ruleCount (q : ClassParams) (t r : ℚ) : ℕ :=
  (if IsDisk q r then 1 else 0) + (if IsHalo q t r then 1 else 0) +
    (if IsBulge q t r then 1 else 0) + (if IsThick q t r then 1 else 0) +
    (if IsPseudoBulge q t r then 1 else 0)

/- ===================== Critical-ratio clamp (lines 190-198) ===================== -/

/-- Post-processing of the bisection result: the returned pair is the j_crit
actually used and whether the warning branch was taken.  If the solved value
exceeds j_disk_min it is discarded and replaced by j_disk_min. -/
def clampJCrit (b jdm : ℚ) : ℚ × Bool :=
  if jdm < b then (jdm, true) else (b, false)

/- ===================== List numerics ===================== -/

/-- Maximum of a rational list (ndarray.max); 0 on the empty list, on which
the source never calls it. -/
def maxQ : List ℚ → ℚ
  | [] => 0
  | x :: xs => xs.foldl max x

/-- Minimum of a rational list (ndarray.min); 0 on the empty list. -/
def minQ : List ℚ → ℚ
  | [] => 0
  | x :: xs => xs.foldl min x

/-- Mean of a rational list; the mean of an empty selection is undefined
(numpy returns nan), modelled as none. -/
def meanQ (l : List ℚ) : Option ℚ :=
  if l = [] then none else some (l.sum / (l.length : ℚ))

/-- numpy median: middle element of the sorted list, or the average of the
two middle elements for even length. -/
def medianQ (l : List ℚ) : ℚ :=
  let s := List.insertionSort (· ≤ ·) l
  if l.length % 2 = 1 then s.getD (l.length / 2) 0
  else (s.getD (l.length / 2 - 1) 0 + s.getD (l.length / 2) 0) / 2

/- ===================== Value domain for j_circ ===================== -/

/-- Value domain of the circular angular momentum field: an IEEE value that
is a finite rational, positive infinity, or nan. -/
inductive JVal where
  | nan : JVal
  | inf : JVal
  | fin : ℚ → JVal
deriving DecidableEq

/-- A JVal is not a negative number (infinity and nan are not negative;
a finite value must be nonnegative). -/
def JVal.NotNeg : JVal → Prop
  | .nan => True
  | .inf => True
  | .fin v => 0 ≤ v

instance (v : JVal) : Decidable v.NotNeg := by
  cases v <;> (unfold JVal.NotNeg; exact inferInstance)

/-- Embed the result of an interpolation evaluation: out-of-range (none,
numpy nan under bounds_error=False) becomes nan. -/
def toJVal : Option ℚ → JVal
  | none => .nan
  | some v => .fin v

/- ===================== 1-D linear interpolation (scipy interp1d) ===================== -/

/-- Ordering of interpolation knots by abscissa. -/
def fstLE (a b : ℚ × ℚ) : Prop := a.1 ≤ b.1

instance : DecidableRel fstLE := fun a b => by unfold fstLE; exact inferInstance

instance : IsTotal (ℚ × ℚ) fstLE := ⟨fun a b => le_total a.1 b.1⟩

instance : IsTrans (ℚ × ℚ) fstLE := ⟨fun _ _ _ h1 h2 => le_trans h1 h2⟩

/-- Piecewise-linear evaluation over knots sorted by abscissa: none outside
the knot range, the usual linear formula on the first segment containing t. -/
def interpSeg : List (ℚ × ℚ) → ℚ → Option ℚ
  | [], _ => none
  | [pt], t => if t = pt.1 then some pt.2 else none
  | p1 :: p2 :: rest, t =>
    if t < p1.1 then none
    else if t ≤ p2.1 then
      some (p1.2 + (p2.2 - p1.2) * (t - p1.1) / (p2.1 - p1.1))
    else interpSeg (p2 :: rest) t

/-- Knots of the interpolant: x and y values paired and sorted by x
(interp1d sorts its input since assume_sorted is not set). -/
def sortPairs (xs ys : List ℚ) : List (ℚ × ℚ) :=
  List.insertionSort fstLE (xs.zip ys)

/-- scipy.interpolate.interp1d with bounds_error=False: evaluate the sorted
piecewise-linear interpolant, none (nan) outside the data range. -/
def interp1dAt (xs ys : List ℚ) (t : ℚ) : Option ℚ :=
  interpSeg (sortPairs xs ys) t

/- ===================== By-energy circular reference mapper (lines 150-168) ===================== -/

/-- Overwrite with +inf where te exceeds the maximum profile circular energy
(line 163). -/
def clampHigh (E : List ℚ) (te : ℚ) (v : JVal) : JVal :=
  if maxQ E < te then .inf else v

/-- Overwrite with the lowest-bin circular angular momentum where te is below
the minimum profile circular energy (lines 167-168); applied after the high
clamp, so it wins if both fire. -/
def clampLow (E j : List ℚ) (te : ℚ) (v : JVal) : JVal :=
  if te < minQ E then .fin (j.headD 0) else v

/-- Linear by-energy mapper: interpolate j_circ against E_circ at te, then
apply the two boundary overwrites. -/
def jCircLin (E j : List ℚ) (te : ℚ) : JVal :=
  clampLow E j te (clampHigh E te (toJVal (interp1dAt E j te)))

/-- Abscissas of the log-variant interpolant: log10 of the negated circular
energies, in reversed bin order. -/
def logXs (log10F : ℚ → ℚ) (E : List ℚ) : List ℚ :=
  (E.map (fun e => log10F (-e))).reverse

/-- Ordinates of the log-variant interpolant: log10 of the circular angular
momenta, in reversed bin order. -/
def logYs (log10F : ℚ → ℚ) (j : List ℚ) : List ℚ :=
  (j.map log10F).reverse

/-- Log-variant by-energy mapper: interpolate log10 j_circ against
log10(-E_circ) at log10(-te), exponentiate, then apply the same two
boundary overwrites.  log10F and exp10F are the numpy collaborators. -/
def jCircLogE (log10F exp10F : ℚ → ℚ) (E j : List ℚ) (te : ℚ) : JVal :=
  clampLow E j te (clampHigh E te
    (toJVal ((interp1dAt (logXs log10F E) (logYs log10F j) (log10F (-te))).map exp10F)))

/-- By-radius mapper: each particle receives the circular angular momentum of
its radial bin (profile create_particle_array map-back). -/
def jCircFromR (jBins : List ℚ) (k : ℕ) : JVal :=
  .fin (jBins.getD k 0)

/- ===================== Particle set state ===================== -/

/-- One simulation particle: position, velocity, mass, softening, potential
value (in the current potential unit) and the star flag. -/
structure Part where
  px : ℚ
  py : ℚ
  pz : ℚ
  vx : ℚ
  vy : ℚ
  vz : ℚ
  mass : ℚ
  eps : ℚ
  phiVal : ℚ
  isStar : Bool
deriving DecidableEq

/-- The fields of a particle other than its coordinates. -/
structure PBase where
  mass : ℚ
  eps : ℚ
  phiVal : ℚ
  isStar : Bool
deriving DecidableEq

/-- Project a particle onto its non-coordinate fields. -/
def baseOf (p : Part) : PBase :=
  ⟨p.mass, p.eps, p.phiVal, p.isStar⟩

/-- The per-bin data exposed by the equal-population radial profile
collaborator, and its map-back bin assignment.  Modelled from the spec:
the binning engine itself (pynbody profile module) is outside the
decomposition core; per its contract it exposes per-bin potential, circular
angular momentum and circular energy, and can broadcast a bin quantity back
to particles by radial-bin membership. -/
structure ProfileData where
  phiBins : List ℚ
  jcircBins : List ℚ
  EcircBins : List ℚ
  binOf : ℕ → ℕ

/-- Configuration parameters of a decomp call. -/
structure Params where
  aligned : Bool
  j_disk_min : ℚ
  j_disk_max : ℚ
  E_cutOpt : Option ℚ
  j_circ_from_r : Bool
  log_interp : Bool

/-- The mutable snapshot state: base particle data, the unit scale of the
stored potential relative to the kinetic-energy unit system, and the derived
per-particle fields attached by decomp (none when absent). -/
structure SnapState where
  parts : List Part
  phiUnit : ℚ
  te : Option (List ℚ)
  jcirc : Option (List JVal)
  jzByJzcirc : Option (List (Option ℚ))
  decompArr : Option (List ℤ)

/-- The external collaborators of decomp, injected as functions: the
alignment transformation, the profile builder, the bisection root finder,
the cylindrical rotational velocity derived array, the numpy log10 and
exponentiation, and the parsed disc filter radius.  Modelled from the spec:
these live outside the decomposition core (transformation/angmom, profile,
util.bisect, numpy, unit parsing). -/
structure Collab where
  T : List Part → List Part
  profiler : List Part → ProfileData
  bisectF : ℚ → ℚ → (ℚ → Option ℚ) → ℚ
  vcxyF : Part → ℚ
  log10F : ℚ → ℚ
  exp10F : ℚ → ℚ
  discR : ℚ

/- ===================== Pipeline stages ===================== -/

/-- Specific kinetic plus potential energy of one particle, with the
potential already expressed in the kinetic-energy unit system. -/
def teRaw (p : Part) : ℚ :=
  (p.vx ^ 2 + p.vy ^ 2 + p.vz ^ 2) / 2 + p.phiVal

/-- Maximum total energy among star particles (computed before the shift). -/
def teMaxStar (l : List Part) : ℚ :=
  maxQ ((l.filter (fun p => p.isStar)).map teRaw)

/-- The attached te field: every particle's total energy minus the maximum
stellar total energy (lines 115-126). -/
def teList (l : List Part) : List ℚ :=
  l.map (fun p => teRaw p - teMaxStar l)

/-- The z component of a particle's specific angular momentum. -/
def jzOf (p : Part) : ℚ :=
  p.px * p.vy - p.py * p.vx

/-- jz divided by the circular angular momentum: nan propagates, an infinite
reference forces the ratio to zero. -/
def ratioOf (jz : ℚ) : JVal → Option ℚ
  | .nan => none
  | .inf => some 0
  | .fin jc => some (jz / jc)

/-- The star subset view: values of a per-particle field restricted to star
particles, in order. -/
def selectStar {α : Type} (l : List Part) (vals : List α) : List α :=
  (l.zip vals).filterMap (fun pv => if pv.1.isStar then some pv.2 else none)

/-- The star particles themselves. -/
def starsOf (l : List Part) : List Part :=
  l.filter (fun p => p.isStar)

/-- The disc-shaped rotation-curve subset (line 133): cylindrical radius
below the parsed outer bound, height below three times the minimum
softening.  Modelled from the spec: the Disc filter collaborator selects by
cylindrical radius and half-height. -/
def discFilter (R : ℚ) (l : List Part) : List Part :=
  l.filter (fun p =>
    decide (p.px ^ 2 + p.py ^ 2 < R ^ 2 ∧ |p.pz| < 3 * minQ (l.map Part.eps)))

/-- The objective handed to the bisection search (line 190): the mean
cylindrical rotational velocity of the stars whose ratio lies below the
candidate threshold; undefined (none) on an empty selection.  A nan ratio
compares false and is excluded from the selection. -/
def spheroidObjective (Vs : List ℚ) (rs : List (Option ℚ)) (c : ℚ) : Option ℚ :=
  meanQ ((Vs.zip rs).filterMap (fun pr =>
    match pr.2 with
    | none => none
    | some r => if r < c then some pr.1 else none))

/-- Apply the classifier to one star, tolerating an undefined ratio (nan
compares false everywhere, so no rule fires and the previous label stays). -/
def decompLabelO (q : ClassParams) (prev : ℤ) (t : ℚ) : Option ℚ → ℤ
  | none => prev
  | some r => decompLabel q prev t r

/-- The decomp array write-back: star particles get their classified label,
other particles keep the previous array content. -/
def applyLabels (q : ClassParams) : List Part → List ℚ → List (Option ℚ) → List ℤ → List ℤ
  | [], _, _, _ => []
  | _ :: _, [], _, _ => []
  | _ :: _, _ :: _, [], _ => []
  | _ :: _, _ :: _, _ :: _, [] => []
  | p :: ps, t :: ts, r :: rs, d :: ds =>
    (if p.isStar then decompLabelO q d t r else d) :: applyLabels q ps ts rs ds

/-- The working view of the particles inside the alignment scope: the
alignment transformation applied when not pre-aligned. -/
def alignedView (T : List Part → List Part) (al : Bool) (l : List Part) : List Part :=
  if al then l else T l

/-- In-place unit conversion of the potential into the kinetic-energy unit
system (line 113): values are rescaled by the old unit, the new unit is 1. -/
def scalePhi (u : ℚ) (l : List Part) : List Part :=
  l.map (fun p => { p with phiVal := p.phiVal * u })

/-- The particle data decomp actually computes with: the aligned view with
the potential converted. -/
def workingOf (C : Collab) (prm : Params) (s : SnapState) : List Part :=
  scalePhi s.phiUnit (alignedView C.T prm.aligned s.parts)

/-- Exit of the alignment scope: coordinates are restored to their original
values on every path out of the with-block; all other per-particle data
keeps the value computed inside.  Modelled from the spec: the transformation
collaborator guarantees scoped revert of the frame. -/
def restoreFrame (orig cur : List Part) : List Part :=
  List.zipWith (fun o n =>
    { n with px := o.px, py := o.py, pz := o.pz, vx := o.vx, vy := o.vy, vz := o.vz })
    orig cur

/-- The per-particle circular angular momentum field, in the three source
configurations: by radius, by energy with log interpolation, or by energy
with linear interpolation.  The profile potential shift by the stellar
maximum energy (line 140) is reflected in the circular energies. -/
def jcircOf (C : Collab) (prm : Params) (w : List Part) : List JVal :=
  let pro := C.profiler (discFilter C.discR w)
  let Ecirc := pro.EcircBins.map (fun x => x - teMaxStar w)
  if prm.j_circ_from_r then
    (List.range w.length).map (fun i => jCircFromR pro.jcircBins (pro.binOf i))
  else if prm.log_interp then
    (teList w).map (fun t => jCircLogE C.log10F C.exp10F Ecirc pro.jcircBins t)
  else
    (teList w).map (fun t => jCircLin Ecirc pro.jcircBins t)

/-- The classifier parameters assembled by decomp: the configured disk band,
the energy cutoff (median stellar energy when not supplied) and the clamped
critical ratio from the bisection over [0, 5]. -/
def classParamsOf (C : Collab) (prm : Params) (w : List Part) : ClassParams :=
  let te := teList w
  let rs := List.zipWith ratioOf (w.map jzOf) (jcircOf C prm w)
  ⟨prm.j_disk_min, prm.j_disk_max,
   prm.E_cutOpt.getD (medianQ (selectStar w te)),
   (clampJCrit
     (C.bisectF 0 5 (spheroidObjective ((starsOf w).map C.vcxyF) (selectStar w rs)))
     prm.j_disk_min).1⟩

/-- The decomp pipeline as a state transformer: align (scoped), convert the
potential unit, attach te, j_circ and jz_by_jzcirc on every particle, solve
and clamp the critical ratio, classify the stars into the decomp array
(created as zeros when absent, overwritten otherwise), and restore the
coordinate frame on exit. -/
def decompM (C : Collab) (prm : Params) (s : SnapState) : SnapState :=
  let w := workingOf C prm s
  let te := teList w
  let jc := jcircOf C prm w
  let rs := List.zipWith ratioOf (w.map jzOf) jc
  let prev := s.decompArr.getD (List.replicate w.length 0)
  { parts := restoreFrame s.parts w
    phiUnit := 1
    te := some te
    jcirc := some jc
    jzByJzcirc := some rs
    decompArr := some (applyLabels (classParamsOf C prm w) w te rs prev) }

/- ===================== Quantile estimator (lines 15-42) ===================== -/

/-- A particle as seen by estimate_jcirc_from_energy: its total energy, its
squared scalar angular momentum, and its current decomp label. -/
structure EstPart where
  te : ℚ
  j2 : ℚ
  decLab : ℤ
deriving DecidableEq

/-- Ordering of index-tagged particles by total energy. -/
def teLE (a b : ℕ × EstPart) : Prop := a.2.te ≤ b.2.te

instance : DecidableRel teLE := fun a b => by unfold teLE; exact inferInstance

instance : IsTotal (ℕ × EstPart) teLE := ⟨fun a b => le_total a.2.te b.2.te⟩

instance : IsTrans (ℕ × EstPart) teLE := ⟨fun _ _ _ h1 h2 => le_trans h1 h2⟩

/-- The population tagged with its original indices and sorted by total
energy.  Modelled from the spec: the QuantileProfile collaborator bins by
increasing value of its x function, here te. -/
def sortByTe (l : List EstPart) : List (ℕ × EstPart) :=
  List.insertionSort teLE l.enum

/-- Split a list into k consecutive chunks of near-equal length. -/
def splitChunks : ℕ → List α → List (List α)
  | 0, _ => []
  | k + 1, l => l.take (l.length / (k + 1)) :: splitChunks k (l.drop (l.length / (k + 1)))

/-- The equal-population energy bins of the estimator: len(h) divided by
particles_per_bin chunks of the energy-sorted population.  Modelled from
the spec: equal-population binning of the QuantileProfile collaborator. -/
def estBins (ppb : ℕ) (l : List EstPart) : List (List (ℕ × EstPart)) :=
  splitChunks (l.length / ppb) (sortByTe l)

/-- The per-bin reference value: the requested quantile of the squared
scalar angular momenta of the bin members.  quantF is the quantile
collaborator. -/
def binQuant (quantF : ℚ → List ℚ → ℚ) (q : ℚ) (c : List (ℕ × EstPart)) : ℚ :=
  quantF q (c.map (fun ie => ie.2.j2))

/-- The jcirc2 array mapped back onto the population: each particle receives
the quantile value of the energy bin containing it. -/
def jcirc2Of (quantF : ℚ → List ℚ → ℚ) (ppb : ℕ) (q : ℚ) (l : List EstPart) : List ℚ :=
  (List.range l.length).map (fun i =>
    ((estBins ppb l).find? (fun c => c.any (fun ie => decide (ie.1 = i)))).elim
      0 (binQuant quantF q))

/-- Result of estimate_jcirc_from_energy: the quantile profile (the bins),
the attached jcirc2 and jcirc arrays, and the decomp labels, which the
routine does not touch.  sqrtF is the numpy square-root collaborator. -/
structure EstOut where
  pro : List (List (ℕ × EstPart))
  jcirc2 : List ℚ
  jcircArr : List ℚ
  labels : List ℤ
deriving DecidableEq

/-- estimate_jcirc_from_energy as a function of the population: bin by
energy, take the quantile of j2 per bin, map back as jcirc2, attach
jcirc = sqrt(jcirc2), return the profile; labels pass through unchanged. -/
def estimateJcirc (sqrtF : ℚ → ℚ) (quantF : ℚ → List ℚ → ℚ) (ppb : ℕ) (q : ℚ)
    (l : List EstPart) : EstOut :=
  let j2 := jcirc2Of quantF ppb q l
  ⟨estBins ppb l, j2, j2.map sqrtF, l.map EstPart.decLab⟩

/- ===================== Concrete sample data ===================== -/

/-- A sample star particle used to evaluate the pipeline concretely. -/
def cPartA : Part := ⟨0, 0, 0, 1, 0, 0, 1, 1, 3, true⟩

/-- Sample classifier parameters: disk band (4, 11), critical ratio 2,
zero energy cutoff (the claims hold the parameters fixed but arbitrary). -/
def cQA : ClassParams := ⟨4, 11, 0, 2⟩

/-- A sample snapshot whose potential is stored in a unit twice the
kinetic-energy unit. -/
def cSnapA : SnapState := ⟨[cPartA], 2, none, none, none, none⟩

/-- Trivial deterministic collaborators for concrete evaluation. -/
def cCollabA : Collab :=
  ⟨id, fun _ => ⟨[], [], [], fun _ => 0⟩, fun _ _ _ => 0, fun _ => 0, id, id, 10⟩

/-- A sample pre-aligned configuration with default band and explicit
energy cutoff. -/
def cPrmA : Params := ⟨true, 4 / 5, 11 / 10, some 0, false, false⟩

/-- A sample two-particle estimator population. -/
def cEstL : List EstPart := [⟨0, 1, 0⟩, ⟨1, 4, 2⟩]

/- ===================== Helper lemmas ===================== -/

theorem le_foldl_max (xs : List ℚ) (a : ℚ) : a ≤ xs.foldl max a := by
  induction xs generalizing a with
  | nil => exact le_refl a
  | cons y ys ih => exact le_trans (le_max_left a y) (ih (max a y))

theorem mem_le_foldl_max {x : ℚ} {xs : List ℚ} (a : ℚ) (hx : x ∈ xs) :
    x ≤ xs.foldl max a := by
  induction xs generalizing a with
  | nil => cases hx
  | cons y ys ih =>
    rcases List.mem_cons.1 hx with rfl | hm
    · exact le_trans (le_max_right a x) (le_foldl_max ys (max a x))
    · exact ih (max a y) hm

theorem foldl_max_sub (xs : List ℚ) (a c : ℚ) :
    (xs.map (fun x => x - c)).foldl max (a - c) = xs.foldl max a - c := by
  induction xs generalizing a with
  | nil => rfl
  | cons y ys ih =>
    simp only [List.map_cons, List.foldl_cons, max_sub_sub_right, ih]

theorem maxQ_le_of_mem {x : ℚ} {l : List ℚ} (hx : x ∈ l) : x ≤ maxQ l := by
  cases l with
  | nil => cases hx
  | cons y ys =>
    rcases List.mem_cons.1 hx with rfl | hm
    · exact le_foldl_max ys x
    · exact mem_le_foldl_max y hm

theorem maxQ_map_sub (l : List ℚ) (c : ℚ) (h : l ≠ []) :
    maxQ (l.map (fun x => x - c)) = maxQ l - c := by
  cases l with
  | nil => exact absurd rfl h
  | cons y ys => simpa [maxQ] using foldl_max_sub ys y c

theorem zip_map_self {α β : Type} (g : α → β) (l : List α) :
    l.zip (l.map g) = l.map (fun a => (a, g a)) := by
  induction l with
  | nil => rfl
  | cons y ys ih => simp [ih]

theorem selectStar_map {α : Type} (g : Part → α) (l : List Part) :
    selectStar l (l.map g) = (l.filter (fun p => p.isStar)).map g := by
  induction l with
  | nil => rfl
  | cons p ps ih =>
    by_cases hp : p.isStar
    · simp [selectStar, List.filter_cons, hp, List.filterMap_cons] at ih ⊢
      exact ih
    · simp [selectStar, List.filter_cons, hp, List.filterMap_cons] at ih ⊢
      exact ih

/- ===================== C2: the critical-ratio safety clamp ===================== -/

/-- C2: if the bisection result exceeds j_disk_min, the solver result is
discarded, j_crit becomes exactly j_disk_min and the warning flag is set
(and only then); hence the j_crit used for classification equals the
minimum of the solved value and j_disk_min and never exceeds j_disk_min,
for every input; the clamp is a total function, never an error path. -/
theorem C2_jcrit_clamp (b m : ℚ) :
    (clampJCrit b m).1 = min b m ∧ (clampJCrit b m).2 = decide (m < b) ∧
      (clampJCrit b m).1 ≤ m := by
  unfold clampJCrit
  by_cases h : m < b
  · simp [h, min_eq_right h.le]
  · have hbm : b ≤ m := not_lt.1 h
    simp [h, min_eq_left hbm, hbm]

/- ===================== C5: pass-1 disk labels survive pass 2 ===================== -/

/-- C5: a star strictly inside the open disk band keeps label 1: with
j_crit at most j_disk_min, none of the four pass-2 rules matches a ratio in
the open band, whatever the energy and the prior label. -/
theorem C5_disk_band_stable (q : ClassParams) (prev : ℤ) (t r : ℚ)
    (hc : q.j_crit ≤ q.j_disk_min) (h1 : q.j_disk_min < r) (h2 : r < q.j_disk_max) :
    decompLabel q prev t r = 1 := by
  have hd : IsDisk q r := ⟨h1, h2⟩
  have hcr : q.j_crit < r := lt_of_le_of_lt hc h1
  have hnh : ¬ IsHalo q t r := fun h => absurd h.2 (not_lt.2 hcr.le)
  have hnb : ¬ IsBulge q t r := fun h => absurd h.2 (not_lt.2 hcr.le)
  have hnt : ¬ IsThick q t r := fun h =>
    h.2.2.elim (fun hh => (not_lt.2 h1.le) hh) (fun hh => (not_lt.2 h2.le) hh)
  have hnp : ¬ IsPseudoBulge q t r := fun h =>
    h.2.2.elim (fun hh => (not_lt.2 h1.le) hh) (fun hh => (not_lt.2 h2.le) hh)
  simp [decompLabel, hd, hnh, hnb, hnt, hnp]

/-- C5 witness: the theorem applied at concrete parameters and a concrete
in-band ratio. -/
theorem C5_witness :
    cQA.j_crit ≤ cQA.j_disk_min ∧ cQA.j_disk_min < 9 ∧ (9 : ℚ) < cQA.j_disk_max ∧
      decompLabel cQA 7 1 9 = 1 :=
  ⟨by decide, by decide, by decide,
    C5_disk_band_stable cQA 7 1 9 (by decide) (by decide) (by decide)⟩

/- ===================== C1: classification partition ===================== -/

/-- C1 counterexample: the claim that the five rules leave no gap fails at
the boundary values.  With j_crit = 2 at most j_disk_min = 4 and band
(4, 11), a star with ratio exactly j_crit, exactly j_disk_min, or exactly
j_disk_max matches no rule and keeps the default label 0, which is not one
of the five component labels. -/
theorem C1_gap_counterexample :
    cQA.j_crit ≤ cQA.j_disk_min ∧ cQA.j_disk_min < cQA.j_disk_max ∧
      decompLabel cQA 0 1 2 = 0 ∧ decompLabel cQA 0 1 4 = 0 ∧
      decompLabel cQA 0 1 11 = 0 ∧
      (0 : ℤ) ∉ ({1, 2, 3, 4, 5} : Finset ℤ) := by
  decide

/-- C1 amended: with j_crit at most j_disk_min and a proper disk band, the
five rules are pairwise disjoint everywhere, and away from the three
boundary ratios (j_crit, j_disk_min, j_disk_max) exactly one rule fires, so
a star starting from the default label 0 receives exactly one label in
{1, 2, 3, 4, 5}. -/
theorem C1_partition_amended (q : ClassParams) (t r : ℚ)
    (hc : q.j_crit ≤ q.j_disk_min) (hb : q.j_disk_min < q.j_disk_max)
    (h1 : r ≠ q.j_crit) (h2 : r ≠ q.j_disk_min) (h3 : r ≠ q.j_disk_max) :
    ruleCount q t r = 1 ∧ decompLabel q 0 t r ∈ ({1, 2, 3, 4, 5} : Finset ℤ) := by
  rcases lt_or_gt_of_ne h1 with hr | hr
  · have hrm : r < q.j_disk_min := lt_of_lt_of_le hr hc
    have hnd : ¬ IsDisk q r := fun h => absurd h.1 (not_lt.2 hrm.le)
    have hnt : ¬ IsThick q t r := fun h => absurd h.2.1 (not_lt.2 hr.le)
    have hnp : ¬ IsPseudoBulge q t r := fun h => absurd h.2.1 (not_lt.2 hr.le)
    by_cases ht : t ≤ q.E_cut
    · have hbu : IsBulge q t r := ⟨ht, hr⟩
      have hnh : ¬ IsHalo q t r := fun h => absurd h.1 (not_lt.2 ht)
      refine ⟨by simp [ruleCount, hnd, hnt, hnp, hbu, hnh], ?_⟩
      simp [decompLabel, hnd, hnt, hnp, hbu, hnh]
    · have hha : IsHalo q t r := ⟨not_le.1 ht, hr⟩
      have hnb : ¬ IsBulge q t r := fun h => absurd h.1 ht
      refine ⟨by simp [ruleCount, hnd, hnt, hnp, hha, hnb], ?_⟩
      simp [decompLabel, hnd, hnt, hnp, hha, hnb]
  · have hnh : ¬ IsHalo q t r := fun h => absurd h.2 (not_lt.2 hr.le)
    have hnb : ¬ IsBulge q t r := fun h => absurd h.2 (not_lt.2 hr.le)
    rcases lt_or_gt_of_ne h2 with hrm | hrm
    · have hnd : ¬ IsDisk q r := fun h => absurd h.1 (not_lt.2 hrm.le)
      by_cases ht : t ≤ q.E_cut
      · have hps : IsPseudoBulge q t r := ⟨ht, hr, Or.inl hrm⟩
        have hnt : ¬ IsThick q t r := fun h => absurd h.1 (not_lt.2 ht)
        refine ⟨by simp [ruleCount, hnd, hnh, hnb, hps, hnt], ?_⟩
        simp [decompLabel, hnd, hnh, hnb, hps, hnt]
      · have hth : IsThick q t r := ⟨not_le.1 ht, hr, Or.inl hrm⟩
        have hnp : ¬ IsPseudoBulge q t r := fun h => absurd h.1 ht
        refine ⟨by simp [ruleCount, hnd, hnh, hnb, hth, hnp], ?_⟩
        simp [decompLabel, hnd, hnh, hnb, hth, hnp]
    · rcases lt_or_gt_of_ne h3 with hrM | hrM
      · have hd : IsDisk q r := ⟨hrm, hrM⟩
        have hnt : ¬ IsThick q t r := fun h =>
          h.2.2.elim (fun hh => (not_lt.2 hrm.le) hh) (fun hh => (not_lt.2 hrM.le) hh)
        have hnp : ¬ IsPseudoBulge q t r := fun h =>
          h.2.2.elim (fun hh => (not_lt.2 hrm.le) hh) (fun hh => (not_lt.2 hrM.le) hh)
        refine ⟨by simp [ruleCount, hd, hnh, hnb, hnt, hnp], ?_⟩
        simp [decompLabel, hd, hnh, hnb, hnt, hnp]
      · have hnd : ¬ IsDisk q r := fun h => absurd h.2 (not_lt.2 hrM.le)
        by_cases ht : t ≤ q.E_cut
        · have hps : IsPseudoBulge q t r := ⟨ht, hr, Or.inr hrM⟩
          have hnt : ¬ IsThick q t r := fun h => absurd h.1 (not_lt.2 ht)
          refine ⟨by simp [ruleCount, hnd, hnh, hnb, hps, hnt], ?_⟩
          simp [decompLabel, hnd, hnh, hnb, hps, hnt]
        · have hth : IsThick q t r := ⟨not_le.1 ht, hr, Or.inr hrM⟩
          have hnp : ¬ IsPseudoBulge q t r := fun h => absurd h.1 ht
          refine ⟨by simp [ruleCount, hnd, hnh, hnb, hth, hnp], ?_⟩
          simp [decompLabel, hnd, hnh, hnb, hth, hnp]

/-- C1 witness: the amended partition theorem applied at concrete
parameters and an off-boundary point of the plane. -/
theorem C1_witness :
    cQA.j_crit ≤ cQA.j_disk_min ∧ cQA.j_disk_min < cQA.j_disk_max ∧
      ((9 : ℚ) ≠ cQA.j_crit) ∧ ((9 : ℚ) ≠ cQA.j_disk_min) ∧
      ((9 : ℚ) ≠ cQA.j_disk_max) ∧
      (ruleCount cQA 1 9 = 1 ∧
        decompLabel cQA 0 1 9 ∈ ({1, 2, 3, 4, 5} : Finset ℤ)) :=
  ⟨by decide, by decide, by decide, by decide, by decide,
    C1_partition_amended cQA 1 9 (by decide) (by decide) (by decide)
      (by decide) (by decide)⟩

/- ===================== C4: the energy reference shift ===================== -/

/-- C4: the te field is attached to every particle (same length), every
particle's te equals its raw total energy minus the single offset
teMaxStar (the maximum stellar total energy before the shift,
subtracted exactly once from stars and non-stars alike), and after the
shift the maximum te over the star particles is exactly zero. -/
theorem C4_energy_shift (l : List Part) (h : l.filter (fun p => p.isStar) ≠ []) :
    (teList l).length = l.length
    ∧ (∀ pv ∈ l.zip (teList l), pv.2 = teRaw pv.1 - teMaxStar l)
    ∧ maxQ (selectStar l (teList l)) = 0 := by
  refine ⟨by simp [teList], ?_, ?_⟩
  · intro pv hpv
    rw [teList, zip_map_self] at hpv
    obtain ⟨a, _, rfl⟩ := List.mem_map.1 hpv
    rfl
  · rw [teList, selectStar_map]
    have hne : (l.filter (fun p => p.isStar)).map teRaw ≠ [] := by
      simpa using h
    rw [show (fun p => teRaw p - teMaxStar l) =
        ((fun x => x - teMaxStar l) ∘ teRaw) from rfl, ← List.map_map]
    rw [maxQ_map_sub _ _ hne, teMaxStar, sub_self]

/-- C4 witness: the shift theorem applied at a one-star snapshot. -/
theorem C4_witness :
    ([cPartA].filter (fun p => p.isStar) ≠ []) ∧
      ((teList [cPartA]).length = [cPartA].length
      ∧ (∀ pv ∈ [cPartA].zip (teList [cPartA]), pv.2 = teRaw pv.1 - teMaxStar [cPartA])
      ∧ maxQ (selectStar [cPartA] (teList [cPartA])) = 0) :=
  ⟨by decide, C4_energy_shift [cPartA] (by decide)⟩

/- ===================== Interpolation lemmas ===================== -/

theorem foldl_max_mem (xs : List ℚ) (a : ℚ) : xs.foldl max a ∈ a :: xs := by
  induction xs generalizing a with
  | nil => exact List.mem_singleton.2 rfl
  | cons y ys ih =>
    rcases List.mem_cons.1 (ih (max a y)) with hh | hh
    · rcases max_choice a y with hc | hc
      · exact List.mem_cons.2 (Or.inl (by rw [List.foldl_cons, hh, hc]))
      · refine List.mem_cons.2 (Or.inr (List.mem_cons.2 (Or.inl ?_)))
        rw [List.foldl_cons, hh, hc]
    · exact List.mem_cons.2 (Or.inr (List.mem_cons.2 (Or.inr hh)))

theorem maxQ_mem {l : List ℚ} (h : l ≠ []) : maxQ l ∈ l := by
  cases l with
  | nil => exact absurd rfl h
  | cons y ys => exact foldl_max_mem ys y

theorem foldl_min_le (xs : List ℚ) (a : ℚ) : xs.foldl min a ≤ a := by
  induction xs generalizing a with
  | nil => exact le_refl a
  | cons y ys ih => exact le_trans (ih (min a y)) (min_le_left a y)

theorem mem_foldl_min_le {x : ℚ} {xs : List ℚ} (a : ℚ) (hx : x ∈ xs) :
    xs.foldl min a ≤ x := by
  induction xs generalizing a with
  | nil => cases hx
  | cons y ys ih =>
    rcases List.mem_cons.1 hx with rfl | hm
    · exact le_trans (foldl_min_le ys (min a x)) (min_le_right a x)
    · exact ih (min a y) hm

theorem minQ_le_of_mem {x : ℚ} {l : List ℚ} (hx : x ∈ l) : minQ l ≤ x := by
  cases l with
  | nil => cases hx
  | cons y ys =>
    rcases List.mem_cons.1 hx with rfl | hm
    · exact foldl_min_le ys x
    · exact mem_foldl_min_le y hm

theorem foldl_min_mem (xs : List ℚ) (a : ℚ) : xs.foldl min a ∈ a :: xs := by
  induction xs generalizing a with
  | nil => exact List.mem_singleton.2 rfl
  | cons y ys ih =>
    rcases List.mem_cons.1 (ih (min a y)) with hh | hh
    · rcases min_choice a y with hc | hc
      · exact List.mem_cons.2 (Or.inl (by rw [List.foldl_cons, hh, hc]))
      · refine List.mem_cons.2 (Or.inr (List.mem_cons.2 (Or.inl ?_)))
        rw [List.foldl_cons, hh, hc]
    · exact List.mem_cons.2 (Or.inr (List.mem_cons.2 (Or.inr hh)))

theorem minQ_mem {l : List ℚ} (h : l ≠ []) : minQ l ∈ l := by
  cases l with
  | nil => exact absurd rfl h
  | cons y ys => exact foldl_min_mem ys y

theorem minQ_le_maxQ {l : List ℚ} (h : l ≠ []) : minQ l ≤ maxQ l :=
  le_trans (minQ_le_of_mem (maxQ_mem h)) (le_refl _)

theorem sortPairs_sorted (xs ys : List ℚ) : List.Sorted fstLE (sortPairs xs ys) :=
  List.sorted_insertionSort fstLE (xs.zip ys)

theorem sortPairs_perm (xs ys : List ℚ) : List.Perm (sortPairs xs ys) (xs.zip ys) :=
  List.perm_insertionSort fstLE (xs.zip ys)

theorem sortPairs_ne_nil {E j : List ℚ} (hne : E ≠ []) (hlen : E.length = j.length) :
    sortPairs E j ≠ [] := by
  intro hc
  have hlz : (E.zip j).length = 0 := by
    rw [← (sortPairs_perm E j).length_eq, hc, List.length_nil]
  rw [List.length_zip, ← hlen, min_self] at hlz
  exact hne (List.length_eq_zero.1 hlz)

theorem sortPairs_fst_perm {E j : List ℚ} (hlen : E.length = j.length) :
    List.Perm ((sortPairs E j).map Prod.fst) E := by
  refine ((sortPairs_perm E j).map Prod.fst).trans ?_
  rw [List.map_fst_zip E j (le_of_eq hlen)]

theorem sorted_fst_le_getLastD :
    ∀ (p : ℚ × ℚ) (rest : List (ℚ × ℚ)), List.Sorted fstLE (p :: rest) →
      ∀ q ∈ p :: rest, q.1 ≤ (rest.getLastD p).1 := by
  intro p rest
  induction rest generalizing p with
  | nil =>
    intro _ q hq
    rcases List.mem_cons.1 hq with rfl | hm
    · exact le_refl _
    · cases hm
  | cons p2 r ih =>
    intro hs q hq
    have hs2 : List.Sorted fstLE (p2 :: r) := hs.of_cons
    have hlast : (r.getLastD p2).1 = ((p2 :: r).getLastD p).1 := by
      rw [List.getLastD_cons]
    rcases List.mem_cons.1 hq with rfl | hm
    · have h12 : fstLE q p2 := List.rel_of_sorted_cons hs p2 (List.mem_cons_self p2 r)
      exact le_trans h12 (by rw [← hlast]; exact ih p2 hs2 p2 (List.mem_cons_self p2 r))
    · rw [← hlast]; exact ih p2 hs2 q hm

theorem interpSeg_isSome :
    ∀ (p : ℚ × ℚ) (rest : List (ℚ × ℚ)) (t : ℚ), List.Sorted fstLE (p :: rest) →
      p.1 ≤ t → t ≤ (rest.getLastD p).1 → (interpSeg (p :: rest) t).isSome = true := by
  intro p rest
  induction rest generalizing p with
  | nil =>
    intro t _ hlo hhi
    have ht : t = p.1 := le_antisymm hhi hlo
    simp [interpSeg, ht]
  | cons p2 r ih =>
    intro t hs hlo hhi
    have hs2 : List.Sorted fstLE (p2 :: r) := hs.of_cons
    rw [show interpSeg (p :: p2 :: r) t =
        (if t < p.1 then none
         else if t ≤ p2.1 then
           some (p.2 + (p2.2 - p.2) * (t - p.1) / (p2.1 - p.1))
         else interpSeg (p2 :: r) t) from rfl]
    rw [if_neg (not_lt.2 hlo)]
    by_cases h2 : t ≤ p2.1
    · rw [if_pos h2]; rfl
    · rw [if_neg h2]
      refine ih p2 t hs2 (le_of_lt (not_le.1 h2)) ?_
      rw [show (r.getLastD p2).1 = ((p2 :: r).getLastD p).1 from by rw [List.getLastD_cons]]
      exact hhi

theorem interpSeg_nonneg :
    ∀ (pts : List (ℚ × ℚ)) (t v : ℚ), List.Sorted fstLE pts →
      (∀ pt ∈ pts, 0 ≤ pt.2) → interpSeg pts t = some v → 0 ≤ v := by
  intro pts
  induction pts with
  | nil => intro t v _ _ he; cases he
  | cons p rest ih =>
    intro t v hs hy he
    cases rest with
    | nil =>
      by_cases ht : t = p.1
      · rw [show interpSeg [p] t = (if t = p.1 then some p.2 else none) from rfl,
          if_pos ht] at he
        cases he
        exact hy p (List.mem_cons_self p [])
      · rw [show interpSeg [p] t = (if t = p.1 then some p.2 else none) from rfl,
          if_neg ht] at he
        cases he
    | cons p2 r =>
      rw [show interpSeg (p :: p2 :: r) t =
          (if t < p.1 then none
           else if t ≤ p2.1 then
             some (p.2 + (p2.2 - p.2) * (t - p.1) / (p2.1 - p.1))
           else interpSeg (p2 :: r) t) from rfl] at he
      by_cases h1 : t < p.1
      · rw [if_pos h1] at he; cases he
      · rw [if_neg h1] at he
        by_cases h2 : t ≤ p2.1
        · rw [if_pos h2] at he
          have hx12 : p.1 ≤ p2.1 :=
            List.rel_of_sorted_cons hs p2 (List.mem_cons_self p2 r)
          have hy1 : 0 ≤ p.2 := hy p (List.mem_cons_self p (p2 :: r))
          have hy2 : 0 ≤ p2.2 :=
            hy p2 (List.mem_cons.2 (Or.inr (List.mem_cons_self p2 r)))
          have hv : p.2 + (p2.2 - p.2) * (t - p.1) / (p2.1 - p.1) = v :=
            Option.some.inj he
          by_cases hxe : p2.1 - p.1 = 0
          · rw [hxe, div_zero, add_zero] at hv
            rw [← hv]; exact hy1
          · have hlt : p.1 < p2.1 :=
              lt_of_le_of_ne hx12 (fun hq => hxe (by rw [hq, sub_self]))
            have hform : p.2 + (p2.2 - p.2) * (t - p.1) / (p2.1 - p.1) =
                (p.2 * (p2.1 - t) + p2.2 * (t - p.1)) / (p2.1 - p.1) := by
              field_simp
              ring
            rw [hform] at hv
            rw [← hv]
            refine div_nonneg (add_nonneg ?_ ?_) (sub_nonneg.2 hx12)
            · exact mul_nonneg hy1 (sub_nonneg.2 h2)
            · exact mul_nonneg hy2 (sub_nonneg.2 (not_lt.1 h1))
        · rw [if_neg h2] at he
          exact ih t v hs.of_cons (fun pt hpt => hy pt (List.mem_cons.2 (Or.inr hpt))) he

theorem interp1dAt_isSome {E j : List ℚ} (te : ℚ) (hne : E ≠ [])
    (hlen : E.length = j.length) (hlo : minQ E ≤ te) (hhi : te ≤ maxQ E) :
    ∃ v, interp1dAt E j te = some v := by
  cases hp : sortPairs E j with
  | nil => exact absurd hp (sortPairs_ne_nil hne hlen)
  | cons p rest =>
    have hs : List.Sorted fstLE (p :: rest) := by
      rw [← hp]; exact sortPairs_sorted E j
    have hfst : List.Perm ((sortPairs E j).map Prod.fst) E := sortPairs_fst_perm hlen
    have hmin : ∃ q ∈ p :: rest, q.1 = minQ E := by
      have hm : minQ E ∈ (p :: rest).map Prod.fst := by
        rw [← hp]; exact hfst.mem_iff.2 (minQ_mem hne)
      obtain ⟨q, hq, hqe⟩ := List.mem_map.1 hm
      exact ⟨q, hq, hqe⟩
    have hmax : ∃ q ∈ p :: rest, q.1 = maxQ E := by
      have hm : maxQ E ∈ (p :: rest).map Prod.fst := by
        rw [← hp]; exact hfst.mem_iff.2 (maxQ_mem hne)
      obtain ⟨q, hq, hqe⟩ := List.mem_map.1 hm
      exact ⟨q, hq, hqe⟩
    obtain ⟨qmin, hqmin, hqmine⟩ := hmin
    obtain ⟨qmax, hqmax, hqmaxe⟩ := hmax
    have hple : p.1 ≤ minQ E := by
      rcases List.mem_cons.1 hqmin with rfl | hm
      · rw [hqmine]
      · rw [← hqmine]; exact List.rel_of_sorted_cons hs qmin hm
    have hlaste : maxQ E ≤ (rest.getLastD p).1 := by
      rw [← hqmaxe]; exact sorted_fst_le_getLastD p rest hs qmax hqmax
    have hsome := interpSeg_isSome p rest te hs (le_trans hple hlo) (le_trans hhi hlaste)
    rw [interp1dAt, hp]
    exact Option.isSome_iff_exists.1 hsome

theorem interp1dAt_nonneg {E j : List ℚ} {te v : ℚ} (hy : ∀ y ∈ j, 0 ≤ y)
    (he : interp1dAt E j te = some v) : 0 ≤ v := by
  refine interpSeg_nonneg (sortPairs E j) te v (sortPairs_sorted E j) ?_ he
  intro pt hpt
  have hz : pt ∈ E.zip j := (sortPairs_perm E j).mem_iff.1 hpt
  exact hy pt.2 (List.of_mem_zip hz).2

theorem headD_nonneg {j : List ℚ} (hy : ∀ y ∈ j, 0 ≤ y) : 0 ≤ j.headD 0 := by
  cases j with
  | nil => exact le_refl 0
  | cons y ys => exact hy y (List.mem_cons_self y ys)

theorem getD_nonneg {j : List ℚ} (hy : ∀ y ∈ j, 0 ≤ y) (k : ℕ) : 0 ≤ j.getD k 0 := by
  induction j generalizing k with
  | nil => simp [List.getD]
  | cons y ys ih =>
    cases k with
    | zero => simpa using hy y (List.mem_cons_self y ys)
    | succ n =>
      have hys : ∀ y ∈ ys, (0 : ℚ) ≤ y := fun z hz => hy z (List.mem_cons.2 (Or.inr hz))
      simpa using ih hys n

/- ===================== C3: j_circ clamps and nonnegativity ===================== -/

/-- C3: for a nonempty profile, the by-energy mapper gives exactly +inf
where te exceeds the maximum circular energy, exactly the lowest-bin
circular angular momentum where te is below the minimum (no extrapolation),
and a finite interpolated value (never nan) elsewhere; when the profile
circular angular momenta are nonnegative no produced value is negative in
any configuration: linear, log-interpolated (for any positive
exponentiation collaborator), or by-radius. -/
theorem C3_jcirc_clamps_nonneg (E j : List ℚ) (hne : E ≠ [])
    (hlen : E.length = j.length) (te : ℚ) :
    (maxQ E < te → jCircLin E j te = .inf)
    ∧ (te < minQ E → jCircLin E j te = .fin (j.headD 0))
    ∧ jCircLin E j te ≠ .nan
    ∧ ((∀ y ∈ j, 0 ≤ y) → (jCircLin E j te).NotNeg)
    ∧ (∀ lF eF : ℚ → ℚ, (∀ z, 0 < eF z) → (∀ y ∈ j, 0 ≤ y) →
        (jCircLogE lF eF E j te).NotNeg)
    ∧ (∀ k : ℕ, (∀ y ∈ j, 0 ≤ y) → (jCircFromR j k).NotNeg) := by
  refine ⟨?_, ?_, ?_, ?_, ?_, ?_⟩
  · intro hhi
    have hnlo : ¬ te < minQ E := by
      intro hlo
      exact absurd (lt_trans hlo (lt_of_le_of_lt (minQ_le_maxQ hne) hhi))
        (lt_irrefl te)
    rw [jCircLin, clampLow, if_neg hnlo, clampHigh, if_pos hhi]
  · intro hlo
    rw [jCircLin, clampLow, if_pos hlo]
  · by_cases hlo : te < minQ E
    · rw [jCircLin, clampLow, if_pos hlo]; intro hc; cases hc
    · by_cases hhi : maxQ E < te
      · rw [jCircLin, clampLow, if_neg hlo, clampHigh, if_pos hhi]
        intro hc; cases hc
      · obtain ⟨v, hv⟩ :=
          interp1dAt_isSome te hne hlen (not_lt.1 hlo) (not_lt.1 hhi)
        rw [jCircLin, clampLow, if_neg hlo, clampHigh, if_neg hhi, hv, toJVal]
        intro hc; cases hc
  · intro hy
    by_cases hlo : te < minQ E
    · rw [jCircLin, clampLow, if_pos hlo]
      exact headD_nonneg hy
    · by_cases hhi : maxQ E < te
      · rw [jCircLin, clampLow, if_neg hlo, clampHigh, if_pos hhi]; trivial
      · obtain ⟨v, hv⟩ :=
          interp1dAt_isSome te hne hlen (not_lt.1 hlo) (not_lt.1 hhi)
        rw [jCircLin, clampLow, if_neg hlo, clampHigh, if_neg hhi, hv, toJVal]
        exact interp1dAt_nonneg hy hv
  · intro lF eF heF hy
    by_cases hlo : te < minQ E
    · rw [jCircLogE, clampLow, if_pos hlo]
      exact headD_nonneg hy
    · by_cases hhi : maxQ E < te
      · rw [jCircLogE, clampLow, if_neg hlo, clampHigh, if_pos hhi]; trivial
      · rw [jCircLogE, clampLow, if_neg hlo, clampHigh, if_neg hhi]
        cases hi : interp1dAt (logXs lF E) (logYs lF j) (lF (-te)) with
        | none => trivial
        | some z => exact le_of_lt (heF z)
  · intro k hy
    show (0 : ℚ) ≤ j.getD k 0
    exact getD_nonneg hy k

/-- C3 witness: the clamp and nonnegativity theorem applied to a concrete
two-bin profile. -/
theorem C3_witness :
    ([(-4 : ℚ), -2] ≠ []) ∧ [(-4 : ℚ), -2].length = [(1 : ℚ), 3].length ∧
      ((maxQ [(-4 : ℚ), -2] < 5 → jCircLin [(-4 : ℚ), -2] [(1 : ℚ), 3] 5 = .inf)
      ∧ ((5 : ℚ) < minQ [(-4 : ℚ), -2] →
          jCircLin [(-4 : ℚ), -2] [(1 : ℚ), 3] 5 = .fin ([(1 : ℚ), 3].headD 0))
      ∧ jCircLin [(-4 : ℚ), -2] [(1 : ℚ), 3] 5 ≠ .nan
      ∧ ((∀ y ∈ [(1 : ℚ), 3], 0 ≤ y) → (jCircLin [(-4 : ℚ), -2] [(1 : ℚ), 3] 5).NotNeg)
      ∧ (∀ lF eF : ℚ → ℚ, (∀ z, 0 < eF z) → (∀ y ∈ [(1 : ℚ), 3], 0 ≤ y) →
          (jCircLogE lF eF [(-4 : ℚ), -2] [(1 : ℚ), 3] 5).NotNeg)
      ∧ (∀ k : ℕ, (∀ y ∈ [(1 : ℚ), 3], 0 ≤ y) →
          (jCircFromR [(1 : ℚ), 3] k).NotNeg)) :=
  ⟨by decide, by decide, C3_jcirc_clamps_nonneg [(-4 : ℚ), -2] [(1 : ℚ), 3]
    (by decide) (by decide) 5⟩

/- ===================== C6: ascending interpolation abscissas ===================== -/

/-- C6: the bins are ordered by increasing radius, hence by strictly
increasing (all-negative) circular energy, i.e. decreasing magnitude; the
log-variant interpolant reverses the bin order and its abscissa list
log10(-E_circ) is then strictly ascending (for any strictly monotone log10
collaborator); away from the two clamp regions the log-variant value is
exactly the exponentiated interpolation of reversed log10 j_circ against
reversed log10(-E_circ) evaluated at log10(-te). -/
theorem C6_ascending_log_interp (log10F : ℚ → ℚ) (E : List ℚ)
    (hmono : StrictMono log10F) (hsort : List.Sorted (· < ·) E)
    (hneg : ∀ e ∈ E, e < 0) :
    List.Sorted (· < ·) (logXs log10F E)
    ∧ (∀ (eF : ℚ → ℚ) (j : List ℚ) (te : ℚ), ¬ maxQ E < te → ¬ te < minQ E →
        jCircLogE log10F eF E j te =
          toJVal ((interp1dAt (logXs log10F E) (logYs log10F j)
            (log10F (-te))).map eF)) := by
  constructor
  · rw [logXs, List.Sorted]
    rw [List.pairwise_reverse, List.pairwise_map]
    exact hsort.imp (fun hab => hmono (neg_lt_neg hab))
  · intro eF j te hhi hlo
    rw [jCircLogE, clampLow, if_neg hlo, clampHigh, if_neg hhi]

/-- C6 witness: the ascending-order theorem applied to the identity log
collaborator and a concrete strictly increasing negative energy list. -/
theorem C6_witness :
    StrictMono (id : ℚ → ℚ) ∧ List.Sorted (· < ·) [(-4 : ℚ), -2] ∧
      (∀ e ∈ [(-4 : ℚ), -2], e < 0) ∧
      (List.Sorted (· < ·) (logXs id [(-4 : ℚ), -2])
      ∧ (∀ (eF : ℚ → ℚ) (j : List ℚ) (te : ℚ),
          ¬ maxQ [(-4 : ℚ), -2] < te → ¬ te < minQ [(-4 : ℚ), -2] →
          jCircLogE id eF [(-4 : ℚ), -2] j te =
            toJVal ((interp1dAt (logXs id [(-4 : ℚ), -2]) (logYs id j)
              (id (-te))).map eF))) :=
  ⟨strictMono_id, by decide, by decide,
    C6_ascending_log_interp id [(-4 : ℚ), -2] strictMono_id (by decide) (by decide)⟩

/- ===================== Pipeline lemmas ===================== -/

theorem scalePhi_one (l : List Part) : scalePhi 1 l = l := by
  have hf : (fun p : Part => { p with phiVal := p.phiVal * 1 }) = id := by
    funext p; cases p; simp
  rw [scalePhi, hf, List.map_id]

theorem scalePhi_cons (u : ℚ) (p : Part) (ps : List Part) :
    scalePhi u (p :: ps) = { p with phiVal := p.phiVal * u } :: scalePhi u ps := rfl

theorem restoreFrame_cons (p n : Part) (ps ns : List Part) :
    restoreFrame (p :: ps) (n :: ns) =
      { n with px := p.px, py := p.py, pz := p.pz, vx := p.vx, vy := p.vy, vz := p.vz }
        :: restoreFrame ps ns := rfl

theorem restoreFrame_scalePhi (u : ℚ) (l : List Part) :
    restoreFrame l (scalePhi u l) = scalePhi u l := by
  induction l with
  | nil => rfl
  | cons p ps ih =>
    rw [scalePhi_cons, restoreFrame_cons, ih]

theorem restoreFrame_map_orig {α : Type} (g : Part → α)
    (hg : ∀ o n : Part,
      g { n with px := o.px, py := o.py, pz := o.pz, vx := o.vx, vy := o.vy, vz := o.vz } = g o) :
    ∀ (l w : List Part), l.length = w.length →
      (restoreFrame l w).map g = l.map g := by
  intro l
  induction l with
  | nil =>
    intro w h
    cases w with
    | nil => rfl
    | cons n ns => cases h
  | cons p ps ih =>
    intro w h
    cases w with
    | nil => cases h
    | cons n ns =>
      have hlen : ps.length = ns.length := Nat.succ_injective (by simpa using h)
      rw [restoreFrame_cons, List.map_cons, List.map_cons, hg p n, ih ns hlen]

theorem restoreFrame_map_cur {α : Type} (g : Part → α)
    (hg : ∀ o n : Part,
      g { n with px := o.px, py := o.py, pz := o.pz, vx := o.vx, vy := o.vy, vz := o.vz } = g n) :
    ∀ (l w : List Part), l.length = w.length →
      (restoreFrame l w).map g = w.map g := by
  intro l
  induction l with
  | nil =>
    intro w h
    cases w with
    | nil => rfl
    | cons n ns => cases h
  | cons p ps ih =>
    intro w h
    cases w with
    | nil => cases h
    | cons n ns =>
      have hlen : ps.length = ns.length := Nat.succ_injective (by simpa using h)
      rw [restoreFrame_cons, List.map_cons, List.map_cons, hg p n, ih ns hlen]

theorem scalePhi_map_keep {α : Type} (g : Part → α) (u : ℚ)
    (hg : ∀ p : Part, g { p with phiVal := p.phiVal * u } = g p) (l : List Part) :
    (scalePhi u l).map g = l.map g := by
  rw [scalePhi, List.map_map]
  congr 1
  funext p
  exact hg p

theorem scalePhi_map_phi (u : ℚ) (l : List Part) :
    (scalePhi u l).map Part.phiVal = l.map (fun p => p.phiVal * u) := by
  rw [scalePhi, List.map_map]
  congr 1

theorem alignedView_map_base (T : List Part → List Part)
    (hT : ∀ l, (T l).map baseOf = l.map baseOf) (al : Bool) (l : List Part) :
    (alignedView T al l).map baseOf = l.map baseOf := by
  cases al with
  | true => rfl
  | false => exact hT l

theorem alignedView_map_via {α : Type} (T : List Part → List Part)
    (hT : ∀ l, (T l).map baseOf = l.map baseOf) (al : Bool) (l : List Part)
    (h : PBase → α) :
    (alignedView T al l).map (fun p => h (baseOf p)) = l.map (fun p => h (baseOf p)) := by
  have h2 := congrArg (List.map h) (alignedView_map_base T hT al l)
  rw [List.map_map, List.map_map] at h2
  exact h2

/- ===================== C7: side effects of decomp ===================== -/

/-- C7 counterexample: the claim that every pre-existing field, including
the potential and its units, is unchanged fails: decomp converts the
potential into the kinetic-energy unit system in place.  On a snapshot
whose potential unit is twice the kinetic-energy unit, the stored potential
values and the potential unit both differ after the call. -/
theorem C7_phi_counterexample :
    (decompM cCollabA cPrmA cSnapA).parts.map Part.phiVal ≠ cSnapA.parts.map Part.phiVal
    ∧ (decompM cCollabA cPrmA cSnapA).phiUnit ≠ cSnapA.phiUnit := by
  constructor
  · have h1 : (decompM cCollabA cPrmA cSnapA).parts.map Part.phiVal = [(3 : ℚ) * 2] := rfl
    have h2 : cSnapA.parts.map Part.phiVal = [(3 : ℚ)] := rfl
    rw [h1, h2]
    intro hc
    have h3 : (3 : ℚ) * 2 = 3 := by
      have := List.cons.inj hc
      exact this.1
    norm_num at h3
  · show (1 : ℚ) ≠ 2
    norm_num

/-- C7 amended: for any alignment transformation that only alters
coordinates, decomp leaves every pre-existing field unchanged except the
potential: positions, velocities, masses, softenings and star flags are
identical after the call (the coordinate frame is restored on exit), while
the potential is re-expressed in the kinetic-energy unit system: its stored
values are the old values times the old unit and its new unit is 1, the
same physical quantity. -/
theorem C7_side_effects_amended (C : Collab) (prm : Params) (s : SnapState)
    (hT : ∀ l, (C.T l).map baseOf = l.map baseOf) :
    (decompM C prm s).parts.map Part.px = s.parts.map Part.px
    ∧ (decompM C prm s).parts.map Part.py = s.parts.map Part.py
    ∧ (decompM C prm s).parts.map Part.pz = s.parts.map Part.pz
    ∧ (decompM C prm s).parts.map Part.vx = s.parts.map Part.vx
    ∧ (decompM C prm s).parts.map Part.vy = s.parts.map Part.vy
    ∧ (decompM C prm s).parts.map Part.vz = s.parts.map Part.vz
    ∧ (decompM C prm s).parts.map Part.mass = s.parts.map Part.mass
    ∧ (decompM C prm s).parts.map Part.eps = s.parts.map Part.eps
    ∧ (decompM C prm s).parts.map Part.isStar = s.parts.map Part.isStar
    ∧ (decompM C prm s).parts.map Part.phiVal = s.parts.map (fun p => p.phiVal * s.phiUnit)
    ∧ (decompM C prm s).phiUnit = 1 := by
  have hlen : s.parts.length = (workingOf C prm s).length := by
    rw [workingOf, scalePhi, List.length_map]
    have h2 := congrArg List.length (alignedView_map_base C.T hT prm.aligned s.parts)
    rw [List.length_map, List.length_map] at h2
    exact h2.symm
  have hparts : (decompM C prm s).parts = restoreFrame s.parts (workingOf C prm s) := rfl
  refine ⟨?_, ?_, ?_, ?_, ?_, ?_, ?_, ?_, ?_, ?_, rfl⟩
  · rw [hparts]; exact restoreFrame_map_orig Part.px (fun o n => rfl) _ _ hlen
  · rw [hparts]; exact restoreFrame_map_orig Part.py (fun o n => rfl) _ _ hlen
  · rw [hparts]; exact restoreFrame_map_orig Part.pz (fun o n => rfl) _ _ hlen
  · rw [hparts]; exact restoreFrame_map_orig Part.vx (fun o n => rfl) _ _ hlen
  · rw [hparts]; exact restoreFrame_map_orig Part.vy (fun o n => rfl) _ _ hlen
  · rw [hparts]; exact restoreFrame_map_orig Part.vz (fun o n => rfl) _ _ hlen
  · rw [hparts, restoreFrame_map_cur Part.mass (fun o n => rfl) _ _ hlen,
      workingOf, scalePhi_map_keep Part.mass s.phiUnit (fun p => rfl)]
    exact alignedView_map_via C.T hT prm.aligned s.parts PBase.mass
  · rw [hparts, restoreFrame_map_cur Part.eps (fun o n => rfl) _ _ hlen,
      workingOf, scalePhi_map_keep Part.eps s.phiUnit (fun p => rfl)]
    exact alignedView_map_via C.T hT prm.aligned s.parts PBase.eps
  · rw [hparts, restoreFrame_map_cur Part.isStar (fun o n => rfl) _ _ hlen,
      workingOf, scalePhi_map_keep Part.isStar s.phiUnit (fun p => rfl)]
    exact alignedView_map_via C.T hT prm.aligned s.parts PBase.isStar
  · rw [hparts, restoreFrame_map_cur Part.phiVal (fun o n => rfl) _ _ hlen,
      workingOf, scalePhi_map_phi s.phiUnit]
    exact alignedView_map_via C.T hT prm.aligned s.parts
      (fun b => b.phiVal * s.phiUnit)

/-- C7 witness: the amended side-effect theorem applied with the identity
alignment collaborator at the concrete sample snapshot. -/
theorem C7_witness :
    (∀ l, (cCollabA.T l).map baseOf = l.map baseOf) ∧
      ((decompM cCollabA cPrmA cSnapA).parts.map Part.px = cSnapA.parts.map Part.px
      ∧ (decompM cCollabA cPrmA cSnapA).parts.map Part.py = cSnapA.parts.map Part.py
      ∧ (decompM cCollabA cPrmA cSnapA).parts.map Part.pz = cSnapA.parts.map Part.pz
      ∧ (decompM cCollabA cPrmA cSnapA).parts.map Part.vx = cSnapA.parts.map Part.vx
      ∧ (decompM cCollabA cPrmA cSnapA).parts.map Part.vy = cSnapA.parts.map Part.vy
      ∧ (decompM cCollabA cPrmA cSnapA).parts.map Part.vz = cSnapA.parts.map Part.vz
      ∧ (decompM cCollabA cPrmA cSnapA).parts.map Part.mass = cSnapA.parts.map Part.mass
      ∧ (decompM cCollabA cPrmA cSnapA).parts.map Part.eps = cSnapA.parts.map Part.eps
      ∧ (decompM cCollabA cPrmA cSnapA).parts.map Part.isStar = cSnapA.parts.map Part.isStar
      ∧ (decompM cCollabA cPrmA cSnapA).parts.map Part.phiVal =
          cSnapA.parts.map (fun p => p.phiVal * cSnapA.phiUnit)
      ∧ (decompM cCollabA cPrmA cSnapA).phiUnit = 1) :=
  ⟨fun l => rfl, C7_side_effects_amended cCollabA cPrmA cSnapA (fun l => rfl)⟩

/- ===================== C8: idempotence on an aligned snapshot ===================== -/

theorem decompLabel_overwrite (q : ClassParams) (prev : ℤ) (t r : ℚ) :
    decompLabel q (decompLabel q prev t r) t r = decompLabel q prev t r := by
  simp only [decompLabel]
  split_ifs <;> rfl

theorem decompLabelO_overwrite (q : ClassParams) (prev : ℤ) (t : ℚ) (r : Option ℚ) :
    decompLabelO q (decompLabelO q prev t r) t r = decompLabelO q prev t r := by
  cases r with
  | none => rfl
  | some rr => exact decompLabel_overwrite q prev t rr

theorem applyLabels_overwrite (q : ClassParams) :
    ∀ (w : List Part) (ts : List ℚ) (rs : List (Option ℚ)) (ds : List ℤ),
      applyLabels q w ts rs (applyLabels q w ts rs ds) = applyLabels q w ts rs ds := by
  intro w
  induction w with
  | nil => intro ts rs ds; rfl
  | cons p ps ih =>
    intro ts rs ds
    cases ts with
    | nil => rfl
    | cons t ts2 =>
      cases rs with
      | nil => rfl
      | cons r rs2 =>
        cases ds with
        | nil => rfl
        | cons d ds2 =>
          simp only [applyLabels]
          by_cases hp : p.isStar
          · simp [hp, decompLabelO_overwrite, ih ts2 rs2 ds2]
          · simp [hp, ih ts2 rs2 ds2]

/-- C8: on an already-aligned snapshot, running decomp twice with the same
parameters and collaborators leaves the decomp label array of the second
run identical to that of the first: the second run finds the same working
data (the potential conversion is idempotent, the frame untouched),
recomputes the same fields, and overwrites every label with the same value. -/
theorem C8_idempotent (C : Collab) (prm : Params) (s : SnapState)
    (hal : prm.aligned = true) :
    (decompM C prm (decompM C prm s)).decompArr = (decompM C prm s).decompArr := by
  have hw1 : workingOf C prm s = scalePhi s.phiUnit s.parts := by
    rw [workingOf, alignedView, hal]
    simp
  have hw2 : workingOf C prm (decompM C prm s) = workingOf C prm s := by
    have hu : (decompM C prm s).phiUnit = 1 := rfl
    have hp : (decompM C prm s).parts = restoreFrame s.parts (workingOf C prm s) := rfl
    rw [workingOf, alignedView, hal]
    simp only [if_true]
    rw [hu, scalePhi_one, hp, hw1, restoreFrame_scalePhi, ← hw1]
  have harr1 : (decompM C prm s).decompArr =
      some (applyLabels (classParamsOf C prm (workingOf C prm s))
        (workingOf C prm s) (teList (workingOf C prm s))
        (List.zipWith ratioOf ((workingOf C prm s).map jzOf)
          (jcircOf C prm (workingOf C prm s)))
        (s.decompArr.getD (List.replicate (workingOf C prm s).length 0))) := rfl
  have harr2 : (decompM C prm (decompM C prm s)).decompArr =
      some (applyLabels (classParamsOf C prm (workingOf C prm (decompM C prm s)))
        (workingOf C prm (decompM C prm s)) (teList (workingOf C prm (decompM C prm s)))
        (List.zipWith ratioOf ((workingOf C prm (decompM C prm s)).map jzOf)
          (jcircOf C prm (workingOf C prm (decompM C prm s))))
        ((decompM C prm s).decompArr.getD
          (List.replicate (workingOf C prm (decompM C prm s)).length 0))) := rfl
  rw [harr2, hw2, harr1]
  rw [Option.getD_some, applyLabels_overwrite]

/-- C8 witness: the idempotence theorem applied at the concrete aligned
sample snapshot with the trivial collaborators. -/
theorem C8_witness :
    cPrmA.aligned = true ∧
      (decompM cCollabA cPrmA (decompM cCollabA cPrmA cSnapA)).decompArr =
        (decompM cCollabA cPrmA cSnapA).decompArr :=
  ⟨rfl, C8_idempotent cCollabA cPrmA cSnapA rfl⟩

/- ===================== Estimator lemmas ===================== -/

theorem splitChunks_length {α : Type} : ∀ (k : ℕ) (l : List α),
    (splitChunks k l).length = k := by
  intro k
  induction k with
  | zero => intro l; rfl
  | succ n ih => intro l; simp [splitChunks, ih]

theorem splitChunks_flatten {α : Type} : ∀ (k : ℕ) (l : List α),
    (splitChunks (k + 1) l).flatten = l := by
  intro k
  induction k with
  | zero =>
    intro l
    simp [splitChunks, Nat.div_one]
  | succ n ih =>
    intro l
    rw [show splitChunks (n + 1 + 1) l =
        l.take (l.length / (n + 1 + 1))
          :: splitChunks (n + 1) (l.drop (l.length / (n + 1 + 1))) from rfl]
    rw [List.flatten_cons, ih]
    exact List.take_append_drop _ l

theorem estBins_flatten (ppb : ℕ) (l : List EstPart) (h : 0 < l.length / ppb) :
    (estBins ppb l).flatten = sortByTe l := by
  obtain ⟨k, hk⟩ : ∃ k, l.length / ppb = k + 1 := by
    cases hnb : l.length / ppb with
    | zero => rw [hnb] at h; cases h
    | succ k => exact ⟨k, rfl⟩
  rw [estBins, hk]
  exact splitChunks_flatten k (sortByTe l)

theorem estBins_cover (ppb : ℕ) (l : List EstPart) (h : 0 < l.length / ppb)
    (i : ℕ) (hi : i < l.length) :
    ∃ c ∈ estBins ppb l, i ∈ c.map Prod.fst := by
  have hperm : List.Perm (sortByTe l) l.enum := List.perm_insertionSort teLE l.enum
  have hmemf : i ∈ (sortByTe l).map Prod.fst := by
    have h1 : i ∈ l.enum.map Prod.fst := by
      rw [List.enum_map_fst]; exact List.mem_range.2 hi
    exact ((hperm.map Prod.fst).mem_iff).2 h1
  obtain ⟨pr, hpr, hpr1⟩ := List.mem_map.1 hmemf
  rw [← estBins_flatten ppb l h] at hpr
  obtain ⟨c, hc, hprc⟩ := List.mem_flatten.1 hpr
  exact ⟨c, hc, List.mem_map.2 ⟨pr, hprc, hpr1⟩⟩

/- ===================== C9: the quantile estimator ===================== -/

/-- C9: estimate_jcirc_from_energy forms len(h) / particles_per_bin bins,
the bins are consecutive chunks of the population sorted by total energy
(whose concatenation is exactly the energy-sorted index-tagged population,
a permutation of the particle list), every particle index receives as
jcirc2 the quantile value of the bin containing it, the attached jcirc is
the pointwise square root of jcirc2 (for the injected square-root
collaborator), and the decomp labels pass through unchanged. -/
theorem C9_estimator (sqrtF : ℚ → ℚ) (quantF : ℚ → List ℚ → ℚ) (ppb : ℕ) (q : ℚ)
    (l : List EstPart) (h : 0 < l.length / ppb) :
    (estimateJcirc sqrtF quantF ppb q l).pro.length = l.length / ppb
    ∧ (estimateJcirc sqrtF quantF ppb q l).pro.flatten = sortByTe l
    ∧ List.Sorted teLE (sortByTe l)
    ∧ List.Perm (sortByTe l) l.enum
    ∧ (∀ i, i < l.length → ∃ c, c ∈ (estimateJcirc sqrtF quantF ppb q l).pro ∧
        i ∈ c.map Prod.fst ∧
        (estimateJcirc sqrtF quantF ppb q l).jcirc2.getD i 0 = binQuant quantF q c)
    ∧ (estimateJcirc sqrtF quantF ppb q l).jcircArr =
        (estimateJcirc sqrtF quantF ppb q l).jcirc2.map sqrtF
    ∧ (estimateJcirc sqrtF quantF ppb q l).labels = l.map EstPart.decLab := by
  refine ⟨splitChunks_length _ _, estBins_flatten ppb l h,
    List.sorted_insertionSort teLE l.enum, List.perm_insertionSort teLE l.enum,
    ?_, rfl, rfl⟩
  intro i hi
  obtain ⟨c1, hc1, hic1⟩ := estBins_cover ppb l h i hi
  have hsome : ((estBins ppb l).find?
      (fun c => c.any (fun ie => decide (ie.1 = i)))).isSome := by
    rw [List.find?_isSome]
    refine ⟨c1, hc1, ?_⟩
    rw [List.any_eq_true]
    obtain ⟨pr, hprc, hpr1⟩ := List.mem_map.1 hic1
    exact ⟨pr, hprc, by simp [hpr1]⟩
  obtain ⟨c0, hc0⟩ := Option.isSome_iff_exists.1 hsome
  have hc0mem : c0 ∈ estBins ppb l := List.mem_of_find?_eq_some hc0
  have hc0pred := List.find?_some hc0
  have hic0 : i ∈ c0.map Prod.fst := by
    rw [List.any_eq_true] at hc0pred
    obtain ⟨ie, hie, hdec⟩ := hc0pred
    exact List.mem_map.2 ⟨ie, hie, of_decide_eq_true hdec⟩
  refine ⟨c0, hc0mem, hic0, ?_⟩
  show (jcirc2Of quantF ppb q l).getD i 0 = binQuant quantF q c0
  rw [jcirc2Of, List.getD_eq_getElem?_getD, List.getElem?_map, List.getElem?_range hi]
  show ((estBins ppb l).find? (fun c => c.any (fun ie => decide (ie.1 = i)))).elim
      0 (binQuant quantF q) = binQuant quantF q c0
  rw [hc0]
  rfl

/-- C9 witness: the estimator theorem applied to a concrete two-particle
population with one particle per bin, the identity square root and the
head-of-list quantile collaborator. -/
theorem C9_witness :
    0 < cEstL.length / 1 ∧
      ((estimateJcirc (fun x => x) (fun _ lx => lx.headD 0) 1 1 cEstL).pro.length =
          cEstL.length / 1
      ∧ (estimateJcirc (fun x => x) (fun _ lx => lx.headD 0) 1 1 cEstL).pro.flatten =
          sortByTe cEstL
      ∧ List.Sorted teLE (sortByTe cEstL)
      ∧ List.Perm (sortByTe cEstL) cEstL.enum
      ∧ (∀ i, i < cEstL.length → ∃ c,
          c ∈ (estimateJcirc (fun x => x) (fun _ lx => lx.headD 0) 1 1 cEstL).pro ∧
          i ∈ c.map Prod.fst ∧
          (estimateJcirc (fun x => x) (fun _ lx => lx.headD 0) 1 1 cEstL).jcirc2.getD i 0 =
            binQuant (fun _ lx => lx.headD 0) 1 c)
      ∧ (estimateJcirc (fun x => x) (fun _ lx => lx.headD 0) 1 1 cEstL).jcircArr =
          (estimateJcirc (fun x => x) (fun _ lx => lx.headD 0) 1 1 cEstL).jcirc2.map
            (fun x => x)
      ∧ (estimateJcirc (fun x => x) (fun _ lx => lx.headD 0) 1 1 cEstL).labels =
          cEstL.map EstPart.decLab) :=
  ⟨by decide, C9_estimator (fun x => x) (fun _ lx => lx.headD 0) 1 1 cEstL (by decide)⟩

/- ===================== C10: the bisection objective on an empty selection ===================== -/

/-- C10: the objective decomp hands to the bisection over [0, 5] - the mean
cylindrical rotational velocity of the stars with ratio below the candidate
threshold - is undefined (an empty-selection mean, none) at every threshold
that is at or below all defined ratios; decomp passes the objective to the
root finder without any guard against this. -/
theorem C10_empty_objective (Vs : List ℚ) (rs : List (Option ℚ)) (c : ℚ)
    (h : ∀ x ∈ rs.reduceOption, c ≤ x) :
    spheroidObjective Vs rs c = none := by
  rw [spheroidObjective]
  have hnil : (Vs.zip rs).filterMap (fun pr =>
      match pr.2 with
      | none => none
      | some r => if r < c then some pr.1 else none) = [] := by
    rw [List.filterMap_eq_nil_iff]
    intro pr hpr
    cases hr : pr.2 with
    | none => simp [hr]
    | some r =>
      have hrm : r ∈ rs.reduceOption := by
        have h2 : pr.2 ∈ rs := (List.of_mem_zip hpr).2
        rw [hr] at h2
        exact List.reduceOption_mem_iff.2 h2
      simp [hr, if_neg (not_lt.2 (h r hrm))]
  rw [hnil]
  rfl

/-- C10 witness: the empty-selection theorem applied at threshold zero with
a single star of ratio one. -/
theorem C10_witness :
    (∀ x ∈ ([some 1] : List (Option ℚ)).reduceOption, (0 : ℚ) ≤ x) ∧
      spheroidObjective [1] [some 1] 0 = none :=
  ⟨by decide, C10_empty_objective [1] [some 1] 0 (by decide)⟩

end PynbodyDecomp
